import Mathlib

/-!
# xiaohongshu/publish.go : tokenizer, tag driver, orchestrator and bounded parent ascent

A shallow embedding of `src/xiaohongshu/publish.go`.

Strings.  A Go string is modelled as a `List Char`, one `Char` for each rune
that `regexp` reads.  Every character the tokenizer distinguishes (`#`, space,
tab, newline, form feed, carriage return) is ASCII, and an ASCII byte is never
part of a longer rune, so cutting at a character index and cutting at the byte
index of the same character give the same substrings; indices below count
characters.  A byte that is not valid UTF-8 is read by `regexp` as one rune
U+FFFD, which is a character of `[^\s#]` like any other.

The regular expression.  `regexp` is Go's standard library; its
`FindAllStringSubmatchIndex` is modelled from its documentation: the
successive leftmost matches, each search starting where the match before
ended, with `+` greedy.
-/

namespace Xiaohongshu

/-! ## The regular expression `#([^\s#]+)` -/

/-- The class `\s` of Go's `regexp` (RE2 syntax): exactly `[\t\n\f\r ]`. -/
def isSpace (c : Char) : Bool :=
  c = '\t' || c = '\n' || c = '\x0c' || c = '\r' || c = ' '

/-- The class `[^\s#]` of the tag regular expression. -/
def isTagChar (c : Char) : Bool :=
  !(isSpace c) && !(c = '#')

/-- Length of the match of `#([^\s#]+)` anchored at the head of the input, if
there is one: a `#` followed by the longest (greedy, at least one) run of
characters of `[^\s#]`. -/
def matchLen : List Char → Option Nat
  | [] => none
  | c :: rest =>
    if c = '#' then
      let n := (rest.takeWhile isTagChar).length
      if n = 0 then none else some (n + 1)
    else none

/-- One entry of the result of `FindAllStringSubmatchIndex`: the bounds of the
whole match (`match[0]`, `match[1]`) and of its capture group (`match[2]`,
`match[3]`). -/
structure MatchIndex where
  m0 : Nat
  m1 : Nat
  m2 : Nat
  m3 : Nat
  deriving DecidableEq, Repr

/-- Scan for the successive leftmost non-overlapping matches.  `pos` is the
index of the head of the remaining input; `skip` counts the characters of the
remaining input that still belong to the match found last. -/
def findAllAux : Nat → Nat → List Char → List MatchIndex
  | _, _, [] => []
  | pos, skip + 1, _ :: rest => findAllAux (pos + 1) skip rest
  | pos, 0, c :: rest =>
    match matchLen (c :: rest) with
    | some n => ⟨pos, pos + n, pos + 1, pos + n⟩ :: findAllAux (pos + 1) (n - 1) rest
    | none => findAllAux (pos + 1) 0 rest

/-- Model of `tagRegex.FindAllStringSubmatchIndex(content, -1)`. -/
def FindAllStringSubmatchIndex (content : List Char) : List MatchIndex :=
  findAllAux 0 0 content

/-! ## parseContentWithTags -/

/-- The Go type `ContentPart`. -/
structure ContentPart where
  Text : List Char
  IsTag : Bool
  deriving DecidableEq, Repr

/-- The Go slice expression `s[i:j]`. -/
def slice (s : List Char) (i j : Nat) : List Char :=
  (s.drop i).take (j - i)

/-- The state of the loop over `matches`: `parts` and `lastIndex`. -/
structure ParseState where
  parts : List ContentPart
  lastIndex : Nat
  deriving DecidableEq, Repr

/-- One iteration of `for _, match := range matches`. -/
def parseStep (content : List Char) (st : ParseState) (m : MatchIndex) : ParseState :=
  let parts :=
    if m.m0 > st.lastIndex then
      let normalText := slice content st.lastIndex m.m0
      if normalText ≠ [] then st.parts ++ [⟨normalText, false⟩] else st.parts
    else st.parts
  let tagText := slice content m.m0 m.m1
  ⟨parts ++ [⟨tagText, true⟩], m.m1⟩

/-- The statements after the loop: the remaining text, then the fallback for an
empty `parts`. -/
def parseFinish (content : List Char) (st : ParseState) : List ContentPart :=
  let parts :=
    if st.lastIndex < content.length then
      let remainingText := content.drop st.lastIndex
      if remainingText ≠ [] then st.parts ++ [⟨remainingText, false⟩] else st.parts
    else st.parts
  if parts.length = 0 then parts ++ [⟨content, false⟩] else parts

/-- The Go function `parseContentWithTags`. -/
def parseContentWithTags (content : List Char) : List ContentPart :=
  let ms := FindAllStringSubmatchIndex content
  parseFinish content (ms.foldl (parseStep content) ⟨[], 0⟩)

/-! ## Vocabulary of the properties of the tokenizer -/

/-- Concatenation of the `Text` fields of the segments, in order. -/
def joinTexts : List ContentPart → List Char
  | [] => []
  | p :: ps => p.Text ++ joinTexts ps

/-- The text starts with the marker `#`. -/
def startsWithMarker (t : List Char) : Bool :=
  t.head? = some '#'

/-- The text contains a whitespace character (of the class `\s`). -/
def hasWhitespace (t : List Char) : Bool :=
  t.any isSpace

/-- The text contains a `#` after its first character. -/
def hasSecondMarker (t : List Char) : Bool :=
  (t.drop 1).any fun c => c = '#'

/-- The shape of a hashtag text: `#`, then at least one character, none of them
whitespace or `#`. -/
def tagShaped (t : List Char) : Bool :=
  startsWithMarker t && !(hasWhitespace t) && !(hasSecondMarker t) && decide (2 ≤ t.length)

/-- The input contains a hashtag match: a `#` immediately followed by a
non-whitespace, non-`#` character. -/
def containsMatch : List Char → Bool
  | [] => false
  | c :: rest =>
    (c = '#' && (match rest with
      | [] => false
      | d :: _ => !(isSpace d) && !(d = '#'))) || containsMatch rest

/-! ## The page

The browser is a collaborator outside the repository.  It is modelled by the
interactions the code sends to it, recorded in order in a log, and by a test
double `Browser` that decides how each interaction ends.  The `Must...` calls
of go-rod panic when the interaction fails; a panic ends the run.  Calls of
`time.Sleep` and `slog` and the timeouts set on the page do not interact with
the page and are left out. -/

/-- Result of `Element.Attribute(name)`: an error, no such attribute (a `nil`
pointer), or the value of the attribute. -/
inductive AttrResult
  | error
  | absent
  | present (value : String)
  deriving DecidableEq, Repr

/-- One node of the document, with what reading its attributes gives. -/
structure Node where
  id : Nat
  role : AttrResult
  placeholder : AttrResult
  deriving DecidableEq, Repr

/-- A `*rod.Element`: a node together with the chain of its ancestors, the
nearest first. -/
structure Element where
  node : Node
  ancestors : List Node
  deriving DecidableEq, Repr

/-- The call `elem.Parent()`: it fails where the chain of ancestors ends. -/
def Element.Parent (e : Element) : Option Element :=
  match e.ancestors with
  | [] => none
  | p :: rest => some ⟨p, rest⟩

/-- The call `elem.Attribute(name)`. -/
def Element.Attribute (e : Element) (name : String) : AttrResult :=
  if name = "role" then e.node.role
  else if name = "data-placeholder" then e.node.placeholder
  else AttrResult.absent

/-- The loop `for i := 0; i < 5; i++` of `findTextboxParent`, with
`remaining = 5 - i` iterations to go: a failing `Parent()` breaks out of the
loop, a `role` that cannot be read or is not `textbox` moves on to the
parent. -/
def findTextboxParentLoop : Nat → Element → Option Element
  | 0, _ => none
  | remaining + 1, currentElem =>
    match currentElem.Parent with
    | none => none
    | some parent =>
      match parent.Attribute "role" with
      | AttrResult.error => findTextboxParentLoop remaining parent
      | AttrResult.absent => findTextboxParentLoop remaining parent
      | AttrResult.present role =>
        if role = "textbox" then some parent
        else findTextboxParentLoop remaining parent

/-- The Go function `findTextboxParent`; `nil` is `none`. -/
def findTextboxParent (elem : Element) : Option Element :=
  findTextboxParentLoop 5 elem

/-- The ancestor of an element `k` parent hops up, if the chain is that long. -/
def ancestorAt (e : Element) : Nat → Option Element
  | 0 => some e
  | k + 1 =>
    match e.Parent with
    | none => none
    | some p => ancestorAt p k

/-- The element's `role` attribute equals `textbox`. -/
def hasRoleTextbox (e : Element) : Bool :=
  e.Attribute "role" = AttrResult.present "textbox"

/-- The key `input.Enter`. -/
inductive Key
  | Enter
  deriving DecidableEq, Repr

/-- An interaction sent to the page. -/
inductive Event
  | element (selector : String)
  | contentLookup
  | setFiles (el : Element) (paths : List (List Char))
  | input (el : Element) (text : List Char)
  | key (el : Element) (k : Key)
  | click (el : Element)
  deriving DecidableEq, Repr

/-- How the race of `getContentElement` ends. -/
inductive RaceResult
  | found (el : Element)
  | notFound
  | failed
  deriving DecidableEq, Repr

/-- The test double for the browser: given the interactions so far, the element
a selector resolves to (none: the lookup fails), how the race for the content
element ends, and whether an interaction with an element succeeds. -/
structure Browser where
  query : List Event → String → Option Element
  race : List Event → RaceResult
  accepts : List Event → Event → Bool

/-- How a run ends: it returns a value, or a `Must...` call panics.  Both carry
the log of the interactions sent. -/
inductive Outcome (α : Type)
  | returned (log : List Event) (value : α)
  | panicked (log : List Event)
  deriving DecidableEq, Repr

/-- A computation that interacts with the page. -/
def Rod (α : Type) : Type := List Event → Outcome α

/-- Return a value without interacting. -/
def Rod.pure {α : Type} (a : α) : Rod α :=
  fun log => Outcome.returned log a

/-- Sequencing; a panic ends the run. -/
def Rod.bind {α β : Type} (m : Rod α) (f : α → Rod β) : Rod β :=
  fun log =>
    match m log with
    | Outcome.returned log1 a => f a log1
    | Outcome.panicked log1 => Outcome.panicked log1

instance : Monad Rod where
  pure := Rod.pure
  bind := Rod.bind

/-- The call `page.MustElement(selector)`. -/
def MustElement (b : Browser) (selector : String) : Rod Element :=
  fun log =>
    match b.query log selector with
    | some el => Outcome.returned (log ++ [Event.element selector]) el
    | none => Outcome.panicked (log ++ [Event.element selector])

/-- An interaction with an element through a `Must...` method. -/
def interact (b : Browser) (e : Event) : Rod Unit :=
  fun log =>
    if b.accepts log e then Outcome.returned (log ++ [e]) ()
    else Outcome.panicked (log ++ [e])

/-- The call `el.MustInput(text)`. -/
def MustInput (b : Browser) (el : Element) (text : List Char) : Rod Unit :=
  interact b (Event.input el text)

/-- The call `el.MustType(key)`. -/
def MustType (b : Browser) (el : Element) (k : Key) : Rod Unit :=
  interact b (Event.key el k)

/-- The call `el.MustClick()`. -/
def MustClick (b : Browser) (el : Element) : Rod Unit :=
  interact b (Event.click el)

/-- The call `el.MustSetFiles(paths...)`. -/
def MustSetFiles (b : Browser) (el : Element) (paths : List (List Char)) : Rod Unit :=
  interact b (Event.setFiles el paths)

/-- A Go `error` value built by `errors.New` and `errors.Wrap`; `nil` is
`none` of `Option GoError`. -/
inductive GoError
  | New (msg : String)
  | Wrap (cause : GoError) (msg : String)
  deriving DecidableEq, Repr

/-- The Go function `strings.TrimPrefix`. -/
def TrimPrefix (s p : List Char) : List Char :=
  if p.isPrefixOf s then s.drop p.length else s

/-- The Go function `selectFirstTagOption`: it types Enter and returns the
error `errors.New("未找到标签下拉框选项")` on its only path. -/
def selectFirstTagOption (b : Browser) (contentElem : Element) : Rod (Option GoError) := do
  MustType b contentElem Key.Enter
  pure (some (GoError.New "未找到标签下拉框选项"))

/-- The Go function `inputTag`.  The error of `selectFirstTagOption` is only
logged (`slog.Warn`); both branches go on to `return nil`. -/
def inputTag (b : Browser) (contentElem : Element) (tagText : List Char) :
    Rod (Option GoError) := do
  MustInput b contentElem ['#']
  let tagName := TrimPrefix tagText ['#']
  MustInput b contentElem tagName
  match ← selectFirstTagOption b contentElem with
  | some _ => pure none
  | none => pure none

/-- One iteration of the loop of `inputContentWithTags`, for the segment
`part`: a hashtag goes to `inputTag`, and is typed as plain text if that
returns an error; a plain segment is typed as it is. -/
def inputPart (b : Browser) (contentElem : Element) (part : ContentPart) : Rod Unit :=
  if part.IsTag then do
    match ← inputTag b contentElem part.Text with
    | some _ => MustInput b contentElem part.Text
    | none => pure ()
  else
    MustInput b contentElem part.Text

/-- The loop `for _, part := range parts` of `inputContentWithTags`. -/
def inputParts (b : Browser) (contentElem : Element) : List ContentPart → Rod Unit
  | [] => pure ()
  | part :: rest => do
    inputPart b contentElem part
    inputParts b contentElem rest

/-- The Go function `inputContentWithTags`; it returns `nil` after the loop. -/
def inputContentWithTags (b : Browser) (contentElem : Element) (content : List Char) :
    Rod (Option GoError) := do
  let parts := parseContentWithTags content
  inputParts b contentElem parts
  pure none

/-- The Go function `getContentElement`.  The race of the two strategies runs
in the browser, which tells how it ends: an element was handled (`found` is
set), none was, or `MustDo` panics. -/
def getContentElement (b : Browser) : Rod (Option Element) :=
  fun log =>
    match b.race log with
    | RaceResult.found el => Outcome.returned (log ++ [Event.contentLookup]) (some el)
    | RaceResult.notFound => Outcome.returned (log ++ [Event.contentLookup]) none
    | RaceResult.failed => Outcome.panicked (log ++ [Event.contentLookup])

/-- The Go type `PublishImageContent`. -/
structure PublishImageContent where
  Title : List Char
  Content : List Char
  ImagePaths : List (List Char)
  deriving DecidableEq, Repr

/-- The Go function `uploadImages`; it returns `nil` on its only path. -/
def uploadImages (b : Browser) (imagesPaths : List (List Char)) : Rod (Option GoError) := do
  let uploadInput ← MustElement b ".upload-input"
  MustSetFiles b uploadInput imagesPaths
  pure none

/-- The Go function `submitPublish`: the title, then the content element and
the content, then the submit button. -/
def submitPublish (b : Browser) (title content : List Char) : Rod (Option GoError) := do
  let titleElem ← MustElement b "div.d-input input"
  MustInput b titleElem title
  match ← getContentElement b with
  | some contentElem =>
    match ← inputContentWithTags b contentElem content with
    | some err => pure (some (GoError.Wrap err "输入内容失败"))
    | none => do
      let submitButton ← MustElement b "div.submit div.d-button-content"
      MustClick b submitButton
      pure none
  | none => pure (some (GoError.New "没有找到内容输入框"))

/-- The Go method `PublishAction.Publish`, on the page `b`.  The guard on
`len(content.ImagePaths)` comes before anything is sent to the page;
`p.page.Context(ctx)` sends nothing. -/
def Publish (b : Browser) (content : PublishImageContent) : Rod (Option GoError) :=
  if content.ImagePaths.length = 0 then
    pure (some (GoError.New "图片不能为空"))
  else do
    match ← uploadImages b content.ImagePaths with
    | some err => pure (some (GoError.Wrap err "小红书上传图片失败"))
    | none =>
      match ← submitPublish b content.Title content.Content with
      | some err => pure (some (GoError.Wrap err "小红书发布失败"))
      | none => pure none

/-- A browser in which every lookup and every interaction succeeds. -/
def cooperative (target : Element) : Browser where
  query := fun _ _ => some target
  race := fun _ => RaceResult.found target
  accepts := fun _ _ => true

/-- An element with the given id and `role` attribute under the given
ancestors, for the examples. -/
def sampleElement (id : Nat) (role : AttrResult) (ancestors : List Node) : Element :=
  ⟨⟨id, role, AttrResult.absent⟩, ancestors⟩

/-- A node without a `role` attribute, for the examples. -/
def plainNode (id : Nat) : Node :=
  ⟨id, AttrResult.absent, AttrResult.absent⟩

/-- A node whose `role` attribute is `textbox`, for the examples. -/
def textboxNode (id : Nat) : Node :=
  ⟨id, AttrResult.present "textbox", AttrResult.absent⟩

/-! ## The tokenizer as the specification words it -/

namespace Spec

/-- The greedy run of non-whitespace, non-`#` characters at the head of the
input ("matched greedily up to, but excluding, the next whitespace or `#`"). -/
def tagRun (cs : List Char) : List Char :=
  cs.takeWhile fun c => !(isSpace c) && !(c = '#')

/-- The leftmost hashtag match of the input, if any: the literal run before it,
the match itself (`#` and its greedy run of one or more characters) and the
input that follows the match. -/
def firstMatch : List Char → Option (List Char × List Char × List Char)
  | [] => none
  | c :: rest =>
    if c = '#' ∧ tagRun rest ≠ [] then
      some ([], '#' :: tagRun rest, rest.drop (tagRun rest).length)
    else
      match firstMatch rest with
      | some (pre, tag, post) => some (c :: pre, tag, post)
      | none => none

/-- A plain segment for a literal run, skipped if the run is empty. -/
def plainRun (run : List Char) : List ContentPart :=
  if run = [] then [] else [⟨run, false⟩]

/-- The segments of the specification: for each successive match the literal
run before it (skipped if empty) and then the match as a hashtag; after the
last match the remainder (skipped if empty). -/
def tokenize (cs : List Char) : List ContentPart :=
  match h : firstMatch cs with
  | none => plainRun cs
  | some (pre, tag, post) => plainRun pre ++ ⟨tag, true⟩ :: tokenize post
termination_by cs.length
decreasing_by
  have key : ∀ (l a b c : List Char), firstMatch l = some (a, b, c) → c.length < l.length := by
    intro l
    induction l with
    | nil => intro a b c hl; simp [firstMatch] at hl
    | cons x xs ih =>
      intro a b c hl
      unfold firstMatch at hl
      split at hl
      · simp only [Option.some.injEq, Prod.mk.injEq] at hl
        rw [← hl.2.2]
        simp only [List.length_drop, List.length_cons]
        omega
      · split at hl
        · rename_i p t q hq
          simp only [Option.some.injEq, Prod.mk.injEq] at hl
          have := ih p t q hq
          rw [← hl.2.2]
          simp only [List.length_cons]
          omega
        · simp at hl
  exact key _ _ _ _ h

/-- What the orchestrator is to send to the editing target for one segment: a
plain segment is one text entry of its text; a hashtag segment is a text entry
of `#` alone, a text entry of its text with the leading `#` stripped, and one
Enter keystroke. -/
def entries (target : Element) (part : ContentPart) : List Event :=
  if part.IsTag then
    [Event.input target ['#'], Event.input target (part.Text.drop 1),
      Event.key target Key.Enter]
  else [Event.input target part.Text]

/-- The entries of all segments, in the order of the segments. -/
def allEntries (target : Element) : List ContentPart → List Event
  | [] => []
  | part :: rest => entries target part ++ allEntries target rest

end Spec

/-! ## Lemmas on the scan -/

theorem findAllAux_skip (cs : List Char) :
    ∀ pos k, findAllAux pos k cs = findAllAux (pos + k) 0 (cs.drop k) := by
  induction cs with
  | nil => intro pos k; simp [findAllAux]
  | cons c rest ih =>
    intro pos k
    cases k with
    | zero => simp
    | succ k =>
      rw [findAllAux, ih (pos + 1) k]
      simp only [List.drop_succ_cons]
      congr 1
      omega

theorem tagRun_eq (cs : List Char) : Spec.tagRun cs = cs.takeWhile isTagChar := by
  unfold Spec.tagRun
  congr 1

theorem matchLen_cons (c : Char) (rest : List Char) :
    matchLen (c :: rest) =
      if c = '#' ∧ Spec.tagRun rest ≠ [] then some ((Spec.tagRun rest).length + 1) else none := by
  rw [tagRun_eq]
  unfold matchLen
  by_cases hc : c = '#'
  · by_cases hr : rest.takeWhile isTagChar = []
    · simp [hc, hr]
    · have : (rest.takeWhile isTagChar).length ≠ 0 := by
        simpa [List.length_eq_zero] using hr
      simp [hc, hr, this]
  · simp [hc]

theorem tagRun_append_drop (cs : List Char) :
    Spec.tagRun cs ++ cs.drop (Spec.tagRun cs).length = cs := by
  rw [tagRun_eq]
  induction cs with
  | nil => simp
  | cons c rest ih =>
    by_cases h : isTagChar c = true
    · simp [List.takeWhile_cons, h, ih]
    · simp [List.takeWhile_cons, h]

/-- The first match of the specification cuts the input in three. -/
theorem firstMatch_some_split (cs : List Char) :
    ∀ pre tag post, Spec.firstMatch cs = some (pre, tag, post) →
      cs = pre ++ tag ++ post := by
  induction cs with
  | nil => intro pre tag post h; simp [Spec.firstMatch] at h
  | cons c rest ih =>
    intro pre tag post h
    unfold Spec.firstMatch at h
    split at h
    · rename_i hc
      simp only [Option.some.injEq, Prod.mk.injEq] at h
      obtain ⟨h1, h2, h3⟩ := h
      subst h1 h2 h3
      simp [hc.1, tagRun_append_drop]
    · split at h
      · rename_i p t q hq
        simp only [Option.some.injEq, Prod.mk.injEq] at h
        obtain ⟨h1, h2, h3⟩ := h
        subst h1 h2 h3
        have := ih p t q hq
        simp only [List.cons_append, List.cons.injEq, true_and]
        simpa using this
      · simp at h

theorem findAllAux_firstMatch_none (cs : List Char) :
    ∀ pos, Spec.firstMatch cs = none → findAllAux pos 0 cs = [] := by
  induction cs with
  | nil => intro pos _; simp [findAllAux]
  | cons c rest ih =>
    intro pos h
    unfold Spec.firstMatch at h
    split at h
    · simp at h
    · rename_i hc
      split at h
      · simp at h
      · rename_i hq
        rw [findAllAux, matchLen_cons, if_neg hc]
        exact ih (pos + 1) hq

theorem findAllAux_firstMatch_some (cs : List Char) :
    ∀ pos pre tag post, Spec.firstMatch cs = some (pre, tag, post) →
      findAllAux pos 0 cs =
        ⟨pos + pre.length, pos + pre.length + tag.length,
          pos + pre.length + 1, pos + pre.length + tag.length⟩ ::
          findAllAux (pos + pre.length + tag.length) 0 post := by
  induction cs with
  | nil => intro pos pre tag post h; simp [Spec.firstMatch] at h
  | cons c rest ih =>
    intro pos pre tag post h
    unfold Spec.firstMatch at h
    split at h
    · rename_i hc
      simp only [Option.some.injEq, Prod.mk.injEq] at h
      obtain ⟨h1, h2, h3⟩ := h
      subst h1 h2 h3
      rw [findAllAux, matchLen_cons, if_pos hc]
      simp only [List.length_nil, List.length_cons, Nat.add_zero, Nat.add_sub_cancel]
      rw [findAllAux_skip rest (pos + 1) (Spec.tagRun rest).length]
      congr 2
      omega
    · rename_i hc
      split at h
      · rename_i p t q hq
        simp only [Option.some.injEq, Prod.mk.injEq] at h
        obtain ⟨h1, h2, h3⟩ := h
        subst h1 h2 h3
        rw [findAllAux, matchLen_cons, if_neg hc]
        rw [ih (pos + 1) p t q hq]
        simp only [List.length_cons]
        congr 1
        · congr 1 <;> omega
        · congr 1; omega
      · simp at h

/-! ## The loop of parseContentWithTags against the specification's tokenizer -/

theorem tokenize_of_none (cs : List Char) (h : Spec.firstMatch cs = none) :
    Spec.tokenize cs = Spec.plainRun cs := by
  rw [Spec.tokenize]
  split
  · rfl
  · rename_i h2
    rw [h] at h2
    cases h2

theorem tokenize_of_some (cs pre tag post : List Char)
    (h : Spec.firstMatch cs = some (pre, tag, post)) :
    Spec.tokenize cs = Spec.plainRun pre ++ ⟨tag, true⟩ :: Spec.tokenize post := by
  rw [Spec.tokenize]
  split
  · rename_i h2
    rw [h] at h2
    cases h2
  · rename_i p t q h2
    rw [h] at h2
    simp only [Option.some.injEq, Prod.mk.injEq] at h2
    obtain ⟨h1, h3, h4⟩ := h2
    subst h1 h3 h4
    rfl

theorem slice_mid (a b c : List Char) :
    slice (a ++ b ++ c) a.length (a.length + b.length) = b := by
  unfold slice
  simp [List.append_assoc]

theorem firstMatch_tag_ne_nil (cs : List Char) :
    ∀ pre tag post, Spec.firstMatch cs = some (pre, tag, post) →
      ∃ w, tag = '#' :: w ∧ w ≠ [] ∧ ∀ c ∈ w, isTagChar c = true := by
  induction cs with
  | nil => intro pre tag post h; simp [Spec.firstMatch] at h
  | cons c rest ih =>
    intro pre tag post h
    unfold Spec.firstMatch at h
    split at h
    · rename_i hc
      simp only [Option.some.injEq, Prod.mk.injEq] at h
      refine ⟨Spec.tagRun rest, h.2.1.symm, hc.2, ?_⟩
      intro x hx
      rw [tagRun_eq] at hx
      exact (List.mem_takeWhile_imp hx)
    · split at h
      · rename_i p t q hq
        simp only [Option.some.injEq, Prod.mk.injEq] at h
        obtain ⟨_, h3, _⟩ := h
        subst h3
        exact ih p t q hq
      · simp at h

theorem parseStep_first (done pre tag post : List Char) (parts : List ContentPart)
    (m2 m3 : Nat) :
    parseStep (done ++ pre ++ tag ++ post) ⟨parts, done.length⟩
        ⟨done.length + pre.length, done.length + pre.length + tag.length, m2, m3⟩ =
      ⟨(parts ++ Spec.plainRun pre) ++ [⟨tag, true⟩], (done ++ pre ++ tag).length⟩ := by
  unfold parseStep
  have e1 : slice (done ++ pre ++ tag ++ post) done.length (done.length + pre.length) = pre := by
    have := slice_mid done pre (tag ++ post)
    simpa [List.append_assoc] using this
  have e2 : slice (done ++ pre ++ tag ++ post) (done.length + pre.length)
      (done.length + pre.length + tag.length) = tag := by
    have := slice_mid (done ++ pre) tag post
    simpa [List.append_assoc] using this
  simp only [e1, e2]
  by_cases hp : pre = []
  · subst hp
    simp [Spec.plainRun]
  · have : 0 < pre.length := List.length_pos.mpr hp
    simp [Spec.plainRun, hp, this, Nat.add_assoc]

theorem parseFinish_last (done cs : List Char) (parts : List ContentPart) :
    parseFinish (done ++ cs) ⟨parts, done.length⟩ =
      if (parts ++ Spec.plainRun cs).length = 0 then
        (parts ++ Spec.plainRun cs) ++ [⟨done ++ cs, false⟩]
      else parts ++ Spec.plainRun cs := by
  unfold parseFinish
  by_cases hc : cs = []
  · subst hc
    simp [Spec.plainRun]
  · have : 0 < cs.length := List.length_pos.mpr hc
    simp [Spec.plainRun, hc, this]

/-- The loop and the closing statements of `parseContentWithTags`, started after
a prefix `done` already consumed, yield the specification's segments of the
remaining input appended to the parts collected so far. -/
theorem parse_loop (n : Nat) :
    ∀ cs : List Char, cs.length ≤ n → ∀ (done : List Char) (parts : List ContentPart),
      parseFinish (done ++ cs)
          (List.foldl (parseStep (done ++ cs)) ⟨parts, done.length⟩
            (findAllAux done.length 0 cs)) =
        if (parts ++ Spec.tokenize cs).length = 0 then
          (parts ++ Spec.tokenize cs) ++ [⟨done ++ cs, false⟩]
        else parts ++ Spec.tokenize cs := by
  induction n with
  | zero =>
    intro cs hcs done parts
    have : cs = [] := List.length_eq_zero.mp (Nat.le_zero.mp hcs)
    subst this
    have h0 : Spec.firstMatch [] = none := rfl
    rw [tokenize_of_none [] h0]
    simp only [findAllAux, List.foldl_nil]
    exact parseFinish_last done [] parts
  | succ n ih =>
    intro cs hcs done parts
    cases hfm : Spec.firstMatch cs with
    | none =>
      rw [findAllAux_firstMatch_none cs _ hfm, tokenize_of_none cs hfm]
      simp only [List.foldl_nil]
      exact parseFinish_last done cs parts
    | some r =>
      obtain ⟨pre, tag, post⟩ := r
      have hsplit := firstMatch_some_split cs pre tag post hfm
      obtain ⟨w, hw, _, _⟩ := firstMatch_tag_ne_nil cs pre tag post hfm
      rw [findAllAux_firstMatch_some cs _ pre tag post hfm, tokenize_of_some cs pre tag post hfm]
      simp only [List.foldl_cons]
      have hlen : post.length ≤ n := by
        have : cs.length = pre.length + tag.length + post.length := by
          rw [hsplit]; simp [Nat.add_assoc]
        have : 0 < tag.length := by rw [hw]; simp
        omega
      have hcontent : done ++ cs = done ++ pre ++ tag ++ post := by
        rw [hsplit]; simp [List.append_assoc]
      rw [hcontent, parseStep_first]
      have hpos : done.length + pre.length + tag.length = (done ++ pre ++ tag).length := by
        simp [Nat.add_assoc]
      rw [hpos]
      have := ih post hlen (done ++ pre ++ tag) ((parts ++ Spec.plainRun pre) ++ [⟨tag, true⟩])
      rw [this]
      simp [List.append_assoc]

/-- The code's tokenizer in terms of the specification's: the same segments,
except that an empty result is replaced by one plain segment holding the
input. -/
theorem parse_eq_tokenize (content : List Char) :
    parseContentWithTags content =
      if Spec.tokenize content = [] then [⟨content, false⟩] else Spec.tokenize content := by
  have := parse_loop content.length content (Nat.le_refl _) [] []
  simp only [List.nil_append, List.length_nil] at this
  unfold parseContentWithTags FindAllStringSubmatchIndex
  rw [this]
  by_cases h : Spec.tokenize content = []
  · simp [h]
  · simp [h]

theorem tokenize_eq_nil_iff (content : List Char) :
    Spec.tokenize content = [] ↔ content = [] := by
  constructor
  · intro h
    cases hfm : Spec.firstMatch content with
    | none =>
      rw [tokenize_of_none content hfm] at h
      unfold Spec.plainRun at h
      by_contra hne
      simp [hne] at h
    | some r =>
      obtain ⟨pre, tag, post⟩ := r
      rw [tokenize_of_some content pre tag post hfm] at h
      simp at h
  · intro h
    subst h
    rw [tokenize_of_none [] rfl]
    rfl

/-! ## Properties of the specification's tokenizer -/

theorem joinTexts_append (xs ys : List ContentPart) :
    joinTexts (xs ++ ys) = joinTexts xs ++ joinTexts ys := by
  induction xs with
  | nil => rfl
  | cons x xs ih => simp [joinTexts, ih]

theorem joinTexts_plainRun (run : List Char) : joinTexts (Spec.plainRun run) = run := by
  unfold Spec.plainRun
  by_cases h : run = []
  · simp [h, joinTexts]
  · simp [h, joinTexts]

theorem tokenize_join (n : Nat) :
    ∀ cs : List Char, cs.length ≤ n → joinTexts (Spec.tokenize cs) = cs := by
  induction n with
  | zero =>
    intro cs hcs
    have : cs = [] := List.length_eq_zero.mp (Nat.le_zero.mp hcs)
    subst this
    rw [tokenize_of_none [] rfl]
    rfl
  | succ n ih =>
    intro cs hcs
    cases hfm : Spec.firstMatch cs with
    | none => rw [tokenize_of_none cs hfm, joinTexts_plainRun]
    | some r =>
      obtain ⟨pre, tag, post⟩ := r
      have hsplit := firstMatch_some_split cs pre tag post hfm
      obtain ⟨w, hw, _, _⟩ := firstMatch_tag_ne_nil cs pre tag post hfm
      have hlen : post.length ≤ n := by
        have : cs.length = pre.length + tag.length + post.length := by
          rw [hsplit]; simp [Nat.add_assoc]
        have : 0 < tag.length := by rw [hw]; simp
        omega
      rw [tokenize_of_some cs pre tag post hfm, joinTexts_append, joinTexts_plainRun]
      simp only [joinTexts, ih post hlen]
      rw [hsplit]
      simp [List.append_assoc]

theorem tagShaped_iff (t : List Char) :
    tagShaped t = true ↔ ∃ w, t = '#' :: w ∧ w ≠ [] ∧ ∀ c ∈ w, isTagChar c = true := by
  cases t with
  | nil => simp [tagShaped, startsWithMarker]
  | cons a w =>
    have hsp : isSpace '#' = false := by decide
    constructor
    · intro h
      simp only [tagShaped, startsWithMarker, hasWhitespace, hasSecondMarker, List.head?_cons,
        Option.some.injEq, List.any_cons, List.drop_succ_cons, List.drop_zero, List.length_cons,
        Bool.and_eq_true, Bool.not_eq_true', Bool.or_eq_false_iff, decide_eq_true_eq,
        List.any_eq_false] at h
      obtain ⟨⟨⟨ha, _, hws⟩, hmk⟩, hlen⟩ := h
      refine ⟨w, by rw [ha], ?_, ?_⟩
      · intro hw
        subst hw
        simp at hlen
      · intro c hc
        have h1 := hws c hc
        have h2 := hmk c hc
        simp only [isTagChar, Bool.and_eq_true, Bool.not_eq_true', decide_eq_false_iff_not]
        refine ⟨by simpa using h1, by simpa using h2⟩
    · rintro ⟨w2, hw2, hne, hall⟩
      simp only [List.cons.injEq] at hw2
      obtain ⟨ha, hw⟩ := hw2
      subst ha hw
      have hlen : 2 ≤ (w.length + 1) := by
        have : 0 < w.length := List.length_pos.mpr hne
        omega
      simp only [tagShaped, startsWithMarker, hasWhitespace, hasSecondMarker, List.head?_cons,
        List.any_cons, List.drop_succ_cons, List.drop_zero, List.length_cons,
        Bool.and_eq_true, Bool.not_eq_true', Bool.or_eq_false_iff, decide_eq_true_eq,
        List.any_eq_false, hsp, hlen, and_true, true_and]
      refine ⟨?_, ?_⟩
      · intro c hc
        have := hall c hc
        simp only [isTagChar, Bool.and_eq_true, Bool.not_eq_true'] at this
        simp [this.1]
      · intro c hc
        have := hall c hc
        simp only [isTagChar, Bool.and_eq_true, Bool.not_eq_true', decide_eq_false_iff_not] at this
        simpa using this.2

theorem tagRun_cons_ne_nil (x : Char) (l : List Char) (h : isTagChar x = true) :
    Spec.tagRun (x :: l) ≠ [] := by
  rw [tagRun_eq, List.takeWhile_cons_of_pos h]
  simp

/-- A text of the shape of a hashtag has a first match with nothing before it. -/
theorem firstMatch_of_tagShaped (w rest : List Char) (hne : w ≠ [])
    (hall : ∀ c ∈ w, isTagChar c = true) :
    ∃ tag post, Spec.firstMatch ('#' :: (w ++ rest)) = some ([], tag, post) := by
  cases w with
  | nil => exact absurd rfl hne
  | cons x xs =>
    have hx : isTagChar x = true := hall x (List.mem_cons_self _ _)
    have : Spec.tagRun (x :: (xs ++ rest)) ≠ [] := tagRun_cons_ne_nil x _ hx
    refine ⟨'#' :: Spec.tagRun (x :: (xs ++ rest)),
      (x :: (xs ++ rest)).drop (Spec.tagRun (x :: (xs ++ rest))).length, ?_⟩
    show Spec.firstMatch ('#' :: (x :: (xs ++ rest))) = _
    rw [Spec.firstMatch, if_pos ⟨rfl, this⟩]

theorem firstMatch_pre_not_tagShaped (cs pre tag post : List Char)
    (h : Spec.firstMatch cs = some (pre, tag, post)) : tagShaped pre = false := by
  by_contra hcon
  have hts : tagShaped pre = true := by simpa using hcon
  obtain ⟨w, hw, hne, hall⟩ := (tagShaped_iff pre).mp hts
  have hsplit := firstMatch_some_split cs pre tag post h
  have hcs : cs = '#' :: (w ++ (tag ++ post)) := by
    rw [hsplit, hw]; simp [List.append_assoc]
  obtain ⟨t2, p2, h2⟩ := firstMatch_of_tagShaped w (tag ++ post) hne hall
  rw [hcs, h2] at h
  simp only [Option.some.injEq, Prod.mk.injEq] at h
  rw [hw] at h
  exact absurd h.1 (by simp)

theorem firstMatch_none_not_tagShaped (cs : List Char)
    (h : Spec.firstMatch cs = none) : tagShaped cs = false := by
  by_contra hcon
  have hts : tagShaped cs = true := by simpa using hcon
  obtain ⟨w, hw, hne, hall⟩ := (tagShaped_iff cs).mp hts
  obtain ⟨t2, p2, h2⟩ := firstMatch_of_tagShaped w [] hne hall
  rw [List.append_nil, ← hw, h] at h2
  cases h2

theorem mem_plainRun (run : List Char) (p : ContentPart) (hp : p ∈ Spec.plainRun run) :
    p = ⟨run, false⟩ ∧ run ≠ [] := by
  unfold Spec.plainRun at hp
  by_cases h : run = []
  · simp [h] at hp
  · simp only [h, if_false, List.mem_singleton] at hp
    exact ⟨hp, h⟩

/-- Every segment of the specification's tokenizer is non-empty and is a
hashtag exactly when its text has the shape of one. -/
theorem tokenize_parts (n : Nat) :
    ∀ cs : List Char, cs.length ≤ n → ∀ p ∈ Spec.tokenize cs,
      p.Text ≠ [] ∧ p.IsTag = tagShaped p.Text := by
  induction n with
  | zero =>
    intro cs hcs p hp
    have : cs = [] := List.length_eq_zero.mp (Nat.le_zero.mp hcs)
    subst this
    rw [tokenize_of_none [] rfl] at hp
    simp [Spec.plainRun] at hp
  | succ n ih =>
    intro cs hcs p hp
    cases hfm : Spec.firstMatch cs with
    | none =>
      rw [tokenize_of_none cs hfm] at hp
      obtain ⟨rfl, hne⟩ := mem_plainRun cs p hp
      exact ⟨hne, (firstMatch_none_not_tagShaped cs hfm).symm⟩
    | some r =>
      obtain ⟨pre, tag, post⟩ := r
      have hsplit := firstMatch_some_split cs pre tag post hfm
      obtain ⟨w, hw, hwne, hall⟩ := firstMatch_tag_ne_nil cs pre tag post hfm
      have hlen : post.length ≤ n := by
        have : cs.length = pre.length + tag.length + post.length := by
          rw [hsplit]; simp [Nat.add_assoc]
        have : 0 < tag.length := by rw [hw]; simp
        omega
      rw [tokenize_of_some cs pre tag post hfm] at hp
      rcases List.mem_append.mp hp with hp1 | hp2
      · obtain ⟨rfl, hne⟩ := mem_plainRun pre p hp1
        exact ⟨hne, (firstMatch_pre_not_tagShaped cs pre tag post hfm).symm⟩
      · rcases List.mem_cons.mp hp2 with hp3 | hp4
        · subst hp3
          refine ⟨by rw [hw]; simp, ?_⟩
          exact ((tagShaped_iff tag).mpr ⟨w, hw, hwne, hall⟩).symm
        · exact ih post hlen p hp4

/-- Every segment of `parseContentWithTags` is a hashtag exactly when its text
has the shape of one. -/
theorem parse_parts (content : List Char) :
    ∀ p ∈ parseContentWithTags content, p.IsTag = tagShaped p.Text := by
  intro p hp
  rw [parse_eq_tokenize] at hp
  by_cases h : Spec.tokenize content = []
  · simp only [h, if_true, List.mem_singleton] at hp
    have hc := (tokenize_eq_nil_iff content).mp h
    subst hp hc
    rfl
  · simp only [h, if_false] at hp
    exact (tokenize_parts content.length content (Nat.le_refl _) p hp).2

theorem firstMatch_none_of_not_containsMatch (cs : List Char) :
    containsMatch cs = false → Spec.firstMatch cs = none := by
  induction cs with
  | nil => intro _; rfl
  | cons c rest ih =>
    intro h
    unfold containsMatch at h
    simp only [Bool.or_eq_false_iff, Bool.and_eq_false_imp, decide_eq_true_eq] at h
    obtain ⟨h1, h2⟩ := h
    have hno : ¬ (c = '#' ∧ Spec.tagRun rest ≠ []) := by
      rintro ⟨hc, hrun⟩
      have h3 := h1 hc
      cases rest with
      | nil => exact hrun rfl
      | cons d ds =>
        simp only at h3
        apply hrun
        rw [tagRun_eq]
        apply List.takeWhile_cons_of_neg
        simp only [isTagChar]
        simpa using h3
    rw [Spec.firstMatch, if_neg hno, ih h2]

theorem tagRun_of_all (w : List Char) (hall : ∀ c ∈ w, isTagChar c = true) :
    Spec.tagRun w = w := by
  rw [tagRun_eq]
  induction w with
  | nil => rfl
  | cons x xs ih =>
    rw [List.takeWhile_cons_of_pos (hall x (List.mem_cons_self _ _))]
    rw [ih (fun c hc => hall c (List.mem_cons_of_mem _ hc))]

theorem tokenize_single_tag (w : List Char) (hne : w ≠ [])
    (hall : ∀ c ∈ w, isTagChar c = true) :
    Spec.tokenize ('#' :: w) = [⟨'#' :: w, true⟩] := by
  have hrun := tagRun_of_all w hall
  have hfm : Spec.firstMatch ('#' :: w) = some ([], '#' :: w, []) := by
    rw [Spec.firstMatch, if_pos ⟨rfl, by rw [hrun]; exact hne⟩, hrun]
    simp
  rw [tokenize_of_some _ _ _ _ hfm, tokenize_of_none [] rfl]
  rfl

theorem tagRun_append_stop (w : List Char) (t : Char) (rest : List Char)
    (hall : ∀ c ∈ w, isTagChar c = true) (ht : isTagChar t = false) :
    Spec.tagRun (w ++ t :: rest) = w := by
  rw [tagRun_eq]
  induction w with
  | nil =>
    rw [List.nil_append]
    exact List.takeWhile_cons_of_neg (by simp [ht])
  | cons x xs ih =>
    rw [List.cons_append, List.takeWhile_cons_of_pos (hall x (List.mem_cons_self _ _))]
    rw [ih (fun c hc => hall c (List.mem_cons_of_mem _ hc))]

theorem tokenize_tag_then (w : List Char) (t : Char) (rest : List Char) (hne : w ≠ [])
    (hall : ∀ c ∈ w, isTagChar c = true) (ht : isTagChar t = false) :
    Spec.tokenize ('#' :: (w ++ t :: rest)) =
      ⟨'#' :: w, true⟩ :: Spec.tokenize (t :: rest) := by
  have hrun := tagRun_append_stop w t rest hall ht
  have hfm : Spec.firstMatch ('#' :: (w ++ t :: rest)) = some ([], '#' :: w, t :: rest) := by
    rw [Spec.firstMatch, if_pos ⟨rfl, by rw [hrun]; exact hne⟩, hrun]
    simp
  rw [tokenize_of_some _ _ _ _ hfm]
  rfl

/-! ## The claims on the tokenizer -/

/-- C1. Round trip: for every input, concatenating the `Text` fields of the
segments returned by `parseContentWithTags`, in order, gives back the input. -/
theorem parseContentWithTags_roundtrip (content : List Char) :
    joinTexts (parseContentWithTags content) = content := by
  rw [parse_eq_tokenize]
  by_cases h : Spec.tokenize content = []
  · have hc := (tokenize_eq_nil_iff content).mp h
    subst hc
    simp [h, joinTexts]
  · simp only [h, if_false]
    exact tokenize_join content.length content (Nat.le_refl _)

/-- C2, as stated, fails: on the input `#` the only segment is plain, although
its text starts with `#` and contains no whitespace and no second `#`. -/
theorem typing_iff_fails_on_lone_marker :
    parseContentWithTags ['#'] = [⟨['#'], false⟩] ∧
    ¬ (∀ p ∈ parseContentWithTags ['#'],
        (p.IsTag = true ↔
          (startsWithMarker p.Text = true ∧ hasWhitespace p.Text = false ∧
            hasSecondMarker p.Text = false))) := by
  decide

/-- C2, amended. A segment returned by `parseContentWithTags` is a hashtag if
and only if its text starts with `#`, has at least one more character, and
contains no whitespace (of `\s`) and no second `#`. -/
theorem parseContentWithTags_typing (content : List Char) :
    ∀ p ∈ parseContentWithTags content,
      (p.IsTag = true ↔
        (startsWithMarker p.Text = true ∧ 2 ≤ p.Text.length ∧
          hasWhitespace p.Text = false ∧ hasSecondMarker p.Text = false)) := by
  intro p hp
  rw [parse_parts content p hp]
  simp only [tagShaped, Bool.and_eq_true, Bool.not_eq_true', decide_eq_true_eq]
  tauto

/-- C2, amended, at the input `#a #`: the first segment `#a` is a hashtag and
has the shape, the second ` #` is plain and has not. -/
theorem parseContentWithTags_typing_witness :
    (⟨['#', 'a'], true⟩ : ContentPart) ∈ parseContentWithTags ['#', 'a', ' ', '#'] ∧
    ((⟨['#', 'a'], true⟩ : ContentPart).IsTag = true ↔
      (startsWithMarker ['#', 'a'] = true ∧ 2 ≤ ['#', 'a'].length ∧
        hasWhitespace ['#', 'a'] = false ∧ hasSecondMarker ['#', 'a'] = false)) :=
  ⟨by decide,
    parseContentWithTags_typing ['#', 'a', ' ', '#'] ⟨['#', 'a'], true⟩ (by decide)⟩

/-- C3, as stated, fails on the empty input: the specification's segments are
none, while `parseContentWithTags` returns one plain segment with empty text,
which is not a non-empty literal run. -/
theorem reference_fails_on_empty_input :
    Spec.tokenize [] = [] ∧ parseContentWithTags [] = [⟨[], false⟩] ∧
    parseContentWithTags [] ≠ Spec.tokenize [] := by
  have h : Spec.tokenize [] = [] := by rw [tokenize_of_none [] rfl]; rfl
  refine ⟨h, by decide, ?_⟩
  rw [h]
  decide

/-- C3, amended. For every non-empty input the segments of
`parseContentWithTags` are exactly those of the specification: the successive
leftmost greedy matches as hashtags, with the non-empty literal runs before,
between and after them as plain segments, in document order; the empty input
gives one plain segment with empty text.  The two examples of the
specification hold. -/
theorem parseContentWithTags_reference :
    (∀ content : List Char, parseContentWithTags content =
      if content = [] then [⟨[], false⟩] else Spec.tokenize content) ∧
    parseContentWithTags "hello #world #foo bar".toList =
      [⟨"hello ".toList, false⟩, ⟨"#world".toList, true⟩, ⟨" ".toList, false⟩,
        ⟨"#foo".toList, true⟩, ⟨" bar".toList, false⟩] ∧
    parseContentWithTags "#a#b".toList = [⟨"#a".toList, true⟩, ⟨"#b".toList, true⟩] := by
  refine ⟨?_, by decide, by decide⟩
  intro content
  rw [parse_eq_tokenize]
  by_cases h : content = []
  · subst h
    simp [(tokenize_eq_nil_iff []).mpr rfl]
  · have : Spec.tokenize content ≠ [] := fun h2 => h ((tokenize_eq_nil_iff content).mp h2)
    simp [h, this]

/-- C4. Every hashtag segment returned by `parseContentWithTags` has a text
that is non-empty, begins with `#`, and after its first character contains no
whitespace (of `\s`) and no further `#`. -/
theorem parseContentWithTags_tag_invariant (content : List Char) (p : ContentPart)
    (hp : p ∈ parseContentWithTags content) (htag : p.IsTag = true) :
    p.Text ≠ [] ∧ p.Text.head? = some '#' ∧
      ∀ c ∈ p.Text.drop 1, isSpace c = false ∧ c ≠ '#' := by
  have hs : tagShaped p.Text = true := by rw [← parse_parts content p hp]; exact htag
  obtain ⟨w, hw, _, hall⟩ := (tagShaped_iff p.Text).mp hs
  rw [hw]
  refine ⟨by simp, rfl, ?_⟩
  intro c hc
  have := hall c (by simpa using hc)
  simp only [isTagChar, Bool.and_eq_true, Bool.not_eq_true', decide_eq_false_iff_not] at this
  exact this

/-- C4 at the input `a #b#c d`, for its hashtag segment `#c`. -/
theorem parseContentWithTags_tag_invariant_witness :
    (⟨"#c".toList, true⟩ : ContentPart) ∈ parseContentWithTags "a #b#c d".toList ∧
    ("#c".toList ≠ [] ∧ "#c".toList.head? = some '#' ∧
      ∀ c ∈ "#c".toList.drop 1, isSpace c = false ∧ c ≠ '#') :=
  ⟨by decide,
    parseContentWithTags_tag_invariant "a #b#c d".toList ⟨"#c".toList, true⟩ (by decide) rfl⟩

/-- C5. An input that contains no hashtag match is returned as exactly one
plain segment holding the entire input. -/
theorem parseContentWithTags_no_match (content : List Char)
    (h : containsMatch content = false) :
    parseContentWithTags content = [⟨content, false⟩] := by
  have hfm := firstMatch_none_of_not_containsMatch content h
  rw [parse_eq_tokenize, tokenize_of_none content hfm]
  unfold Spec.plainRun
  by_cases hc : content = []
  · simp [hc]
  · simp [hc]

/-- C5 at the empty input (one plain segment with empty text, not zero
segments) and at `no tags here`. -/
theorem parseContentWithTags_no_match_witness :
    (containsMatch [] = false ∧ parseContentWithTags [] = [⟨[], false⟩]) ∧
    (containsMatch "no tags here".toList = false ∧
      parseContentWithTags "no tags here".toList = [⟨"no tags here".toList, false⟩]) :=
  ⟨⟨by decide, parseContentWithTags_no_match [] (by decide)⟩,
    ⟨by decide, parseContentWithTags_no_match "no tags here".toList (by decide)⟩⟩

/-- C10. Exact set of hashtag terminators: for every non-empty `w` without
`#`, space, tab, newline, form feed and carriage return, `"#" ++ w` is
tokenized as the single hashtag segment `"#" ++ w`, whatever other characters
`w` holds; and each of these six characters after `w` ends the hashtag
there. -/
theorem parseContentWithTags_terminators (w : List Char) (hne : w ≠ [])
    (hw : ∀ c ∈ w, c ≠ '#' ∧ c ≠ ' ' ∧ c ≠ '\t' ∧ c ≠ '\n' ∧ c ≠ '\x0c' ∧ c ≠ '\r') :
    parseContentWithTags ('#' :: w) = [⟨'#' :: w, true⟩] ∧
    ∀ (t : Char) (rest : List Char),
      (t = '#' ∨ t = ' ' ∨ t = '\t' ∨ t = '\n' ∨ t = '\x0c' ∨ t = '\r') →
      (parseContentWithTags ('#' :: (w ++ t :: rest))).head? = some ⟨'#' :: w, true⟩ := by
  have hall : ∀ c ∈ w, isTagChar c = true := by
    intro c hc
    obtain ⟨h1, h2, h3, h4, h5, h6⟩ := hw c hc
    simp [isTagChar, isSpace, h1, h2, h3, h4, h5, h6]
  constructor
  · rw [parse_eq_tokenize, tokenize_single_tag w hne hall]
    simp
  · intro t rest ht
    have hstop : isTagChar t = false := by
      rcases ht with h | h | h | h | h | h <;> subst h <;> decide
    rw [parse_eq_tokenize, tokenize_tag_then w t rest hne hall hstop]
    simp

/-- C10 at `#a\u3000b` (ideographic space) and at a tag holding a vertical tab
and a no-break space: each is one hashtag segment; and a tab ends `#a`. -/
theorem parseContentWithTags_terminators_witness :
    parseContentWithTags ['#', 'a', '\u3000', 'b'] = [⟨['#', 'a', '\u3000', 'b'], true⟩] ∧
    parseContentWithTags ['#', 'x', '\x0b', '\u00a0', 'y'] =
      [⟨['#', 'x', '\x0b', '\u00a0', 'y'], true⟩] ∧
    (parseContentWithTags ['#', 'a', '\t', 'b']).head? = some ⟨['#', 'a'], true⟩ :=
  ⟨(parseContentWithTags_terminators ['a', '\u3000', 'b'] (by decide) (by decide)).1,
    (parseContentWithTags_terminators ['x', '\x0b', '\u00a0', 'y'] (by decide) (by decide)).1,
    (parseContentWithTags_terminators ['a'] (by decide) (by decide)).2 '\t' ['b']
      (Or.inr (Or.inr (Or.inl rfl)))⟩

/-! ## The tag driver and the orchestrator -/

theorem bind_apply {α β : Type} (m : Rod α) (f : α → Rod β) (log : List Event) :
    (m >>= f) log =
      match m log with
      | Outcome.returned log1 a => f a log1
      | Outcome.panicked log1 => Outcome.panicked log1 := rfl

theorem pure_apply {α : Type} (a : α) (log : List Event) :
    (pure a : Rod α) log = Outcome.returned log a := rfl

theorem interact_ok (b : Browser) (hb : ∀ l e, b.accepts l e = true) (e : Event)
    (log : List Event) : interact b e log = Outcome.returned (log ++ [e]) () := by
  simp [interact, hb]

theorem selectFirstTagOption_ok (b : Browser) (hb : ∀ l e, b.accepts l e = true)
    (el : Element) (log : List Event) :
    selectFirstTagOption b el log =
      Outcome.returned (log ++ [Event.key el Key.Enter])
        (some (GoError.New "未找到标签下拉框选项")) := by
  simp only [selectFirstTagOption, bind_apply, MustType, interact_ok b hb, pure_apply]

theorem inputTag_ok (b : Browser) (hb : ∀ l e, b.accepts l e = true)
    (el : Element) (tagText : List Char) (log : List Event) :
    inputTag b el tagText log =
      Outcome.returned
        (log ++ [Event.input el ['#'], Event.input el (TrimPrefix tagText ['#']),
          Event.key el Key.Enter]) none := by
  simp only [inputTag, bind_apply, MustInput, interact_ok b hb, selectFirstTagOption_ok b hb,
    pure_apply, List.append_assoc, List.singleton_append]
  rfl

theorem TrimPrefix_marker (w : List Char) : TrimPrefix ('#' :: w) ['#'] = w := by
  simp [TrimPrefix, List.isPrefixOf]

theorem inputParts_ok (b : Browser) (hb : ∀ l e, b.accepts l e = true) (el : Element) :
    ∀ (parts : List ContentPart) (log : List Event),
      (∀ p ∈ parts, p.IsTag = true → p.Text.head? = some '#') →
      inputParts b el parts log = Outcome.returned (log ++ Spec.allEntries el parts) () := by
  intro parts
  induction parts with
  | nil => intro log _; simp [inputParts, pure_apply, Spec.allEntries]
  | cons part rest ih =>
    intro log hshape
    have hrest : ∀ p ∈ rest, p.IsTag = true → p.Text.head? = some '#' :=
      fun p hp => hshape p (List.mem_cons_of_mem _ hp)
    by_cases htag : part.IsTag = true
    · have hhead := hshape part (List.mem_cons_self _ _) htag
      have htrim : TrimPrefix part.Text ['#'] = part.Text.drop 1 := by
        cases hT : part.Text with
        | nil => rw [hT] at hhead; simp at hhead
        | cons x xs =>
          rw [hT] at hhead
          simp only [List.head?_cons, Option.some.injEq] at hhead
          subst hhead
          rw [TrimPrefix_marker]
          rfl
      simp only [inputParts, inputPart, htag, if_true, bind_apply, inputTag_ok b hb, pure_apply,
        ih _ hrest, Spec.allEntries, Spec.entries, htrim, List.append_assoc]
    · have hplain : part.IsTag = false := by simpa using htag
      simp only [inputParts, inputPart, hplain, Bool.false_eq_true, if_false, bind_apply, MustInput,
        interact_ok b hb, ih _ hrest, Spec.allEntries, Spec.entries, List.append_assoc]

theorem parse_tag_head (content : List Char) :
    ∀ p ∈ parseContentWithTags content, p.IsTag = true → p.Text.head? = some '#' := by
  intro p hp htag
  have hs : tagShaped p.Text = true := by rw [← parse_parts content p hp]; exact htag
  obtain ⟨w, hw, _, _⟩ := (tagShaped_iff p.Text).mp hs
  rw [hw]
  rfl

theorem bind_returned {α β : Type} (m : Rod α) (f : α → Rod β) (log l : List Event) (v : β)
    (h : (m >>= f) log = Outcome.returned l v) :
    ∃ l1 a, m log = Outcome.returned l1 a ∧ f a l1 = Outcome.returned l v := by
  rw [bind_apply] at h
  cases hm : m log with
  | returned l1 a =>
    rw [hm] at h
    exact ⟨l1, a, rfl, h⟩
  | panicked l1 =>
    rw [hm] at h
    cases h

theorem interact_returned (b : Browser) (e : Event) (log l : List Event) (u : Unit)
    (h : interact b e log = Outcome.returned l u) : l = log ++ [e] := by
  unfold interact at h
  by_cases hacc : b.accepts log e = true
  · rw [if_pos hacc] at h
    cases h
    rfl
  · rw [if_neg hacc] at h
    cases h

theorem pure_returned {α : Type} (a v : α) (log l : List Event)
    (h : (pure a : Rod α) log = Outcome.returned l v) : l = log ∧ v = a := by
  rw [pure_apply] at h
  cases h
  exact ⟨rfl, rfl⟩

theorem selectFirstTagOption_returned (b : Browser) (el : Element) (log l : List Event)
    (r : Option GoError) (h : selectFirstTagOption b el log = Outcome.returned l r) :
    l = log ++ [Event.key el Key.Enter] ∧ r = some (GoError.New "未找到标签下拉框选项") := by
  unfold selectFirstTagOption at h
  obtain ⟨l1, u, h1, h2⟩ := bind_returned _ _ _ _ _ h
  have e1 := interact_returned b _ _ _ _ h1
  obtain ⟨e2, e3⟩ := pure_returned _ _ _ _ h2
  subst e1 e2 e3
  exact ⟨rfl, rfl⟩

theorem inputTag_returned (b : Browser) (el : Element) (tagText : List Char)
    (log l : List Event) (r : Option GoError)
    (h : inputTag b el tagText log = Outcome.returned l r) :
    l = log ++ [Event.input el ['#'], Event.input el (TrimPrefix tagText ['#']),
          Event.key el Key.Enter] ∧ r = none := by
  unfold inputTag at h
  obtain ⟨l1, u1, h1, h2⟩ := bind_returned _ _ _ _ _ h
  have e1 := interact_returned b _ _ _ _ h1
  obtain ⟨l2, u2, h3, h4⟩ := bind_returned _ _ _ _ _ h2
  have e2 := interact_returned b _ _ _ _ h3
  obtain ⟨l3, r3, h5, h6⟩ := bind_returned _ _ _ _ _ h4
  obtain ⟨e3, e4⟩ := selectFirstTagOption_returned b el _ _ _ h5
  subst e4
  obtain ⟨e5, e6⟩ := pure_returned _ _ _ _ h6
  subst e1 e2 e3 e5 e6
  refine ⟨?_, rfl⟩
  simp [List.append_assoc]

theorem inputParts_returned (b : Browser) (el : Element) :
    ∀ (parts : List ContentPart) (log l : List Event) (u : Unit),
      (∀ p ∈ parts, p.IsTag = true → p.Text.head? = some '#') →
      inputParts b el parts log = Outcome.returned l u →
      l = log ++ Spec.allEntries el parts := by
  intro parts
  induction parts with
  | nil =>
    intro log l u _ h
    unfold inputParts at h
    obtain ⟨e1, _⟩ := pure_returned _ _ _ _ h
    simp [e1, Spec.allEntries]
  | cons part rest ih =>
    intro log l u hshape h
    have hrest : ∀ p ∈ rest, p.IsTag = true → p.Text.head? = some '#' :=
      fun p hp => hshape p (List.mem_cons_of_mem _ hp)
    unfold inputParts at h
    obtain ⟨l1, u1, h1, h2⟩ := bind_returned _ _ _ _ _ h
    have e2 := ih _ _ _ hrest h2
    unfold inputPart at h1
    by_cases htag : part.IsTag = true
    · have hhead := hshape part (List.mem_cons_self _ _) htag
      have htrim : TrimPrefix part.Text ['#'] = part.Text.drop 1 := by
        cases hT : part.Text with
        | nil => rw [hT] at hhead; simp at hhead
        | cons x xs =>
          rw [hT] at hhead
          simp only [List.head?_cons, Option.some.injEq] at hhead
          subst hhead
          rw [TrimPrefix_marker]
          rfl
      rw [if_pos htag] at h1
      obtain ⟨l0, r0, h3, h4⟩ := bind_returned _ _ _ _ _ h1
      obtain ⟨e3, e4⟩ := inputTag_returned b el _ _ _ _ h3
      subst e4
      obtain ⟨e5, _⟩ := pure_returned _ _ _ _ h4
      subst e2 e5 e3
      simp [Spec.allEntries, Spec.entries, htag, htrim, List.append_assoc]
    · rw [if_neg htag] at h1
      have e3 := interact_returned b _ _ _ _ h1
      have hplain : part.IsTag = false := by simpa using htag
      subst e2 e3
      simp [Spec.allEntries, Spec.entries, hplain, List.append_assoc]

/-! ## The claims on the tag driver and the orchestrator -/

/-- C6. Orchestrator ordering.  When no interaction fails, `inputContentWithTags`
returns no error after sending to the editing target, in the order of the
segments of `parseContentWithTags body`, for a plain segment its text and for
a hashtag segment `#`, the text without its leading `#`, and Enter.  For any
browser, a run that returns has sent exactly these entries and returns no
error. -/
theorem inputContentWithTags_order (b : Browser) (target : Element) (body : List Char)
    (log : List Event) :
    ((∀ l e, b.accepts l e = true) →
      inputContentWithTags b target body log =
        Outcome.returned (log ++ Spec.allEntries target (parseContentWithTags body)) none) ∧
    (∀ l r, inputContentWithTags b target body log = Outcome.returned l r →
      l = log ++ Spec.allEntries target (parseContentWithTags body) ∧ r = none) := by
  constructor
  · intro hb
    simp only [inputContentWithTags, bind_apply,
      inputParts_ok b hb target _ _ (parse_tag_head body), pure_apply]
  · intro l r h
    unfold inputContentWithTags at h
    obtain ⟨l1, u1, h1, h2⟩ := bind_returned _ _ _ _ _ h
    have e1 := inputParts_returned b target _ _ _ _ (parse_tag_head body) h1
    obtain ⟨e2, e3⟩ := pure_returned _ _ _ _ h2
    subst e1 e2 e3
    exact ⟨rfl, rfl⟩

/-- C6 in a browser where nothing fails, for the body `hi #a b`. -/
theorem inputContentWithTags_order_witness :
    inputContentWithTags (cooperative (sampleElement 0 AttrResult.absent []))
        (sampleElement 0 AttrResult.absent []) "hi #a b".toList [] =
      Outcome.returned
        [Event.input (sampleElement 0 AttrResult.absent []) "hi ".toList,
          Event.input (sampleElement 0 AttrResult.absent []) "#".toList,
          Event.input (sampleElement 0 AttrResult.absent []) "a".toList,
          Event.key (sampleElement 0 AttrResult.absent []) Key.Enter,
          Event.input (sampleElement 0 AttrResult.absent []) " b".toList] none :=
  (inputContentWithTags_order (cooperative (sampleElement 0 AttrResult.absent []))
    (sampleElement 0 AttrResult.absent []) "hi #a b".toList []).1 (fun _ _ => rfl)

/-- C8. Fail-fast on an empty image set: with an empty `ImagePaths`, `Publish`
returns the error `图片不能为空`, unwrapped, and sends no interaction to the
page; with a non-empty `ImagePaths` it never returns that error. -/
theorem Publish_empty_images (b : Browser) (title body : List Char) (log : List Event) :
    Publish b ⟨title, body, []⟩ log =
      Outcome.returned log (some (GoError.New "图片不能为空")) ∧
    (∀ paths : List (List Char), paths ≠ [] → ∀ l,
      Publish b ⟨title, body, paths⟩ log ≠
        Outcome.returned l (some (GoError.New "图片不能为空"))) := by
  constructor
  · rfl
  · intro paths hne l h
    have hlen : ¬ paths.length = 0 := by
      intro h0
      exact hne (List.length_eq_zero.mp h0)
    unfold Publish at h
    simp only [hlen, if_false] at h
    obtain ⟨l1, r1, _, h2⟩ := bind_returned _ _ _ _ _ h
    cases r1 with
    | some err =>
      obtain ⟨_, e2⟩ := pure_returned _ _ _ _ h2
      cases e2
    | none =>
      obtain ⟨l2, r2, _, h4⟩ := bind_returned _ _ _ _ _ h2
      cases r2 with
      | some err =>
        obtain ⟨_, e2⟩ := pure_returned _ _ _ _ h4
        cases e2
      | none =>
        obtain ⟨_, e2⟩ := pure_returned _ _ _ _ h4
        cases e2

/-- C8 in a browser where nothing fails: no interaction for an empty image
set, and another outcome than the empty-image-set error for one image. -/
theorem Publish_empty_images_witness :
    Publish (cooperative (sampleElement 0 AttrResult.absent []))
        ⟨"t".toList, "b".toList, []⟩ [] =
      Outcome.returned [] (some (GoError.New "图片不能为空")) ∧
    Publish (cooperative (sampleElement 0 AttrResult.absent []))
        ⟨"t".toList, "b".toList, ["a.png".toList]⟩ [] ≠
      Outcome.returned [] (some (GoError.New "图片不能为空")) :=
  ⟨(Publish_empty_images (cooperative (sampleElement 0 AttrResult.absent []))
      "t".toList "b".toList []).1,
    (Publish_empty_images (cooperative (sampleElement 0 AttrResult.absent []))
      "t".toList "b".toList []).2 ["a.png".toList] (by decide) []⟩

/-! ## The bounded parent ascent -/

theorem findTextboxParentLoop_succ (n : Nat) (e : Element) :
    findTextboxParentLoop (n + 1) e =
      match e.Parent with
      | none => none
      | some parent =>
        if hasRoleTextbox parent = true then some parent
        else findTextboxParentLoop n parent := by
  rw [findTextboxParentLoop]
  cases e.Parent with
  | none => rfl
  | some parent =>
    simp only [hasRoleTextbox]
    split <;> simp_all

theorem ancestorAt_succ (e : Element) (k : Nat) :
    ancestorAt e (k + 1) =
      match e.Parent with
      | none => none
      | some p => ancestorAt p k := rfl

theorem ancestorAt_length (k : Nat) :
    ∀ e r : Element, ancestorAt e k = some r →
      r.ancestors.length + k = e.ancestors.length := by
  induction k with
  | zero =>
    intro e r h
    simp only [ancestorAt, Option.some.injEq] at h
    rw [h]
    rfl
  | succ k ih =>
    intro e r h
    rw [ancestorAt_succ] at h
    cases hanc : e.ancestors with
    | nil => simp [Element.Parent, hanc] at h
    | cons p rest =>
      simp only [Element.Parent, hanc] at h
      have := ih ⟨p, rest⟩ r h
      simp only [List.length_cons] at this ⊢
      omega

/-- The loop returns the nearest ancestor with role `textbox` among those at
1 to `n` hops. -/
theorem findTextboxParentLoop_some (n : Nat) :
    ∀ e r : Element, findTextboxParentLoop n e = some r ↔
      ∃ k, 1 ≤ k ∧ k ≤ n ∧ ancestorAt e k = some r ∧ hasRoleTextbox r = true ∧
        ∀ j, 1 ≤ j → j < k → ∀ a, ancestorAt e j = some a → hasRoleTextbox a = false := by
  induction n with
  | zero =>
    intro e r
    simp only [findTextboxParentLoop]
    constructor
    · intro h; cases h
    · rintro ⟨k, h1, h2, _⟩; omega
  | succ n ih =>
    intro e r
    rw [findTextboxParentLoop_succ]
    cases hpar : e.Parent with
    | none =>
      constructor
      · intro h; cases h
      · rintro ⟨k, h1, _, h3, _⟩
        obtain ⟨k2, rfl⟩ : ∃ k2, k = k2 + 1 := ⟨k - 1, by omega⟩
        rw [ancestorAt_succ, hpar] at h3
        cases h3
    | some parent =>
      have hone : ancestorAt e 1 = some parent := by
        rw [ancestorAt_succ, hpar]; rfl
      by_cases hrole : hasRoleTextbox parent = true
      · simp only [hrole, if_true, Option.some.injEq]
        constructor
        · intro h
          subst h
          exact ⟨1, Nat.le_refl 1, by omega, hone, hrole, fun j h1 h2 => by omega⟩
        · rintro ⟨k, h1, _, h3, _, h5⟩
          by_cases hk : k = 1
          · subst hk
            rw [hone] at h3
            exact Option.some.inj h3
          · have := h5 1 (Nat.le_refl 1) (by omega) parent hone
            rw [hrole] at this
            cases this
      · have hfalse : hasRoleTextbox parent = false := by simpa using hrole
        simp only [hfalse, Bool.false_eq_true, if_false]
        rw [ih parent r]
        constructor
        · rintro ⟨k, h1, h2, h3, h4, h5⟩
          refine ⟨k + 1, by omega, by omega, ?_, h4, ?_⟩
          · rw [ancestorAt_succ, hpar]; exact h3
          · intro j hj1 hj2 a ha
            by_cases hj : j = 1
            · subst hj
              rw [hone] at ha
              cases ha
              exact hfalse
            · obtain ⟨j2, rfl⟩ : ∃ j2, j = j2 + 1 := ⟨j - 1, by omega⟩
              rw [ancestorAt_succ, hpar] at ha
              exact h5 j2 (by omega) (by omega) a ha
        · rintro ⟨k, h1, h2, h3, h4, h5⟩
          have hk : k ≠ 1 := by
            intro hk
            subst hk
            rw [hone] at h3
            cases h3
            rw [hfalse] at h4
            cases h4
          obtain ⟨k2, rfl⟩ : ∃ k2, k = k2 + 1 := ⟨k - 1, by omega⟩
          rw [ancestorAt_succ, hpar] at h3
          refine ⟨k2, by omega, by omega, h3, h4, ?_⟩
          intro j hj1 hj2 a ha
          apply h5 (j + 1) (by omega) (by omega) a
          rw [ancestorAt_succ, hpar]
          exact ha

/-- The loop returns nothing exactly when no ancestor at 1 to `n` hops has role
`textbox`. -/
theorem findTextboxParentLoop_none (n : Nat) :
    ∀ e : Element, findTextboxParentLoop n e = none ↔
      ∀ k, 1 ≤ k → k ≤ n → ∀ a, ancestorAt e k = some a → hasRoleTextbox a = false := by
  induction n with
  | zero =>
    intro e
    simp only [findTextboxParentLoop, true_iff]
    intro k h1 h2
    omega
  | succ n ih =>
    intro e
    rw [findTextboxParentLoop_succ]
    cases hpar : e.Parent with
    | none =>
      simp only [true_iff]
      intro k h1 _ a ha
      obtain ⟨k2, rfl⟩ : ∃ k2, k = k2 + 1 := ⟨k - 1, by omega⟩
      rw [ancestorAt_succ, hpar] at ha
      cases ha
    | some parent =>
      have hone : ancestorAt e 1 = some parent := by
        rw [ancestorAt_succ, hpar]; rfl
      by_cases hrole : hasRoleTextbox parent = true
      · simp only [hrole, if_true]
        constructor
        · intro h; cases h
        · intro h
          have := h 1 (Nat.le_refl 1) (by omega) parent hone
          rw [hrole] at this
          cases this
      · have hfalse : hasRoleTextbox parent = false := by simpa using hrole
        simp only [hfalse, Bool.false_eq_true, if_false]
        rw [ih parent]
        constructor
        · intro h k h1 h2 a ha
          by_cases hk : k = 1
          · subst hk
            rw [hone] at ha
            cases ha
            exact hfalse
          · obtain ⟨k2, rfl⟩ : ∃ k2, k = k2 + 1 := ⟨k - 1, by omega⟩
            rw [ancestorAt_succ, hpar] at ha
            exact h k2 (by omega) (by omega) a ha
        · intro h k h1 h2 a ha
          apply h (k + 1) (by omega) (by omega) a
          rw [ancestorAt_succ, hpar]
          exact ha

/-- C9. Bounded parent ascent: `findTextboxParent` returns the nearest ancestor
at 1 to 5 parent hops whose `role` attribute equals `textbox`; it returns
nothing exactly when no ancestor within 5 hops (as far as the chain goes) has
that role; and what it returns is a proper ancestor, never the starting
element. -/
theorem findTextboxParent_bounded (e : Element) :
    (∀ r, findTextboxParent e = some r ↔
      ∃ k, 1 ≤ k ∧ k ≤ 5 ∧ ancestorAt e k = some r ∧ hasRoleTextbox r = true ∧
        ∀ j, 1 ≤ j → j < k → ∀ a, ancestorAt e j = some a → hasRoleTextbox a = false) ∧
    (findTextboxParent e = none ↔
      ∀ k, 1 ≤ k → k ≤ 5 → ∀ a, ancestorAt e k = some a → hasRoleTextbox a = false) ∧
    (∀ r, findTextboxParent e = some r →
      r ≠ e ∧ r.ancestors.length < e.ancestors.length) := by
  refine ⟨fun r => findTextboxParentLoop_some 5 e r, findTextboxParentLoop_none 5 e, ?_⟩
  intro r h
  obtain ⟨k, h1, _, h3, _⟩ := (findTextboxParentLoop_some 5 e r).mp h
  have hlen := ancestorAt_length k e r h3
  have hlt : r.ancestors.length < e.ancestors.length := by omega
  refine ⟨?_, hlt⟩
  intro heq
  rw [heq] at hlt
  exact Nat.lt_irrefl _ hlt

/-- C9 at the boundary: a textbox ancestor exactly 5 hops up is returned, one
6 hops up is not, and an element that has the role itself, under ancestors
without it, is not returned. -/
theorem findTextboxParent_bounded_witness :
    findTextboxParent (sampleElement 0 AttrResult.absent
        [plainNode 1, plainNode 2, plainNode 3, plainNode 4, textboxNode 5]) =
      some ⟨textboxNode 5, []⟩ ∧
    findTextboxParent (sampleElement 0 AttrResult.absent
        [plainNode 1, plainNode 2, plainNode 3, plainNode 4, plainNode 5, textboxNode 6]) =
      none ∧
    findTextboxParent (sampleElement 0 (AttrResult.present "textbox")
        [plainNode 1, plainNode 2]) = none := by
  refine ⟨?_, ?_, ?_⟩
  · apply ((findTextboxParent_bounded _).1 _).mpr
    refine ⟨5, by decide, by decide, by decide, by decide, ?_⟩
    intro j h1 h2 a ha
    interval_cases j <;>
      simp only [ancestorAt, Element.Parent, sampleElement, Option.some.injEq] at ha <;>
      subst ha <;> decide
  · apply ((findTextboxParent_bounded _).2.1).mpr
    intro k h1 h2 a ha
    interval_cases k <;>
      simp only [ancestorAt, Element.Parent, sampleElement, Option.some.injEq] at ha <;>
      subst ha <;> decide
  · apply ((findTextboxParent_bounded _).2.1).mpr
    intro k h1 h2 a ha
    interval_cases k <;>
      simp only [ancestorAt, Element.Parent, sampleElement, Option.some.injEq,
        reduceCtorEq] at ha <;>
      subst ha <;> decide

end Xiaohongshu
